import Mathlib

/-!
Verification of the FacultyAllocation engine (`allocation_engine.py`,
`data_utils.py`): a shallow embedding of the merit-ordered greedy
allocation algorithm and its statistics/validation helpers, with proofs
of the specified properties.

Modelling conventions:
* A Python `dict` of preferences is an association list `List (String × Int)`
  with `List.lookup` (first-match) semantics; Python dict keys are unique so
  the two agree.
* CGPA (`float` in the source, "real number" in the data model) is `ℚ`.
* `float('inf')` sentinels become `Option Int` with `none` standing for +∞.
* Python's `set(faculty_list)` is modelled as `faculty_list.dedup`; set
  iteration order is unspecified in Python, we fix first-occurrence order.
* Python's truthiness test `if best_faculty:` is false for `None` and for
  the empty string; both cases are modelled explicitly.
* The result `dict` keyed by roll is a `List (String × String)` in insertion
  order (one entry per processed student).
-/

/-- A student record (`Student.__init__`).  The mutable
`allocated_faculty` field is represented separately (see
`allocCellCount`) since the allocation result is what the claims are
about. -/
structure Student where
  roll : String
  name : String
  email : String
  cgpa : ℚ
  preferences : List (String × Int)
deriving DecidableEq, Repr

/-- Comparison of ranks where `none` plays the role of `float('inf')`:
`ltI a b` is the source's `rank < best_rank`. -/
def ltI : Option Int → Option Int → Bool
  | some x, some y => x < y
  | some _, none => true
  | none, _ => false

/-- Scan loop of `Student.get_best_available_faculty`: walk the available
faculty carrying the current `(best_faculty, best_rank)` pair. -/
def bestAux (s : Student) : List String → Option String × Option Int → Option String × Option Int
  | [], acc => acc
  | f :: rest, acc =>
    let r := s.preferences.lookup f
    if ltI r acc.2 then bestAux s rest (some f, r) else bestAux s rest acc

/-- `Student.get_best_available_faculty`: find the best (lowest-rank)
available faculty for this student; returns `(best_faculty, best_rank)`
starting from `(None, inf)`. -/
def Student.getBestAvailableFaculty (s : Student) (available : List String) :
    Option String × Option Int :=
  bestAux s available (none, none)

/-- Sort key order derived from the source's `key=lambda s: (-s.cgpa, s.roll)`:
CGPA descending, then roll ascending. -/
def keyLe (a b : Student) : Prop :=
  b.cgpa < a.cgpa ∨ (a.cgpa = b.cgpa ∧ a.roll ≤ b.roll)

instance : DecidableRel keyLe := fun a b =>
  inferInstanceAs (Decidable (b.cgpa < a.cgpa ∨ (a.cgpa = b.cgpa ∧ a.roll ≤ b.roll)))

/-- `AllocationEngine.sort_students_by_merit`: stable sort by CGPA
descending, roll ascending (Python's `sorted` is a stable sort, as is
`List.insertionSort`). -/
def sortStudentsByMerit (students : List Student) : List Student :=
  students.insertionSort keyLe

/-- Structural-recursion worker for `createGroups`, with the list length
as fuel so that the definition is kernel-computable.  One step per loop
iteration of `range(0, num_students, num_faculty)`: emit `l.take F` and
continue on `l.drop F`.  For `F ≥ 1` fuel `l.length` is always enough
(see `createGroups_cons`). -/
def createGroupsAux (F : Nat) : Nat → List Student → List (List Student)
  | _, [] => []
  | 0, _ :: _ => []
  | fuel + 1, s :: rest => (s :: rest).take F :: createGroupsAux F fuel ((s :: rest).drop F)

/-- `AllocationEngine.create_groups`: slice the sorted list into chunks of
size `F` (`range(0, num_students, num_faculty)`); the last chunk may be
shorter.  The source is only reached with `F ≥ 1`, since `__init__`
raises on a zero faculty count. -/
def createGroups (F : Nat) (l : List Student) : List (List Student) :=
  createGroupsAux F l.length l

/-- The unallocated sentinel string used by `AllocationEngine.allocate`. -/
def UNALLOCATED : String := "UNALLOCATED"

/-- Inner loop of `AllocationEngine.allocate` over one group: each student
in order takes their best available faculty (which is then removed from
the pool) or is marked `UNALLOCATED`.  `if best_faculty:` is Python
truthiness: false for `None` and for the empty string. -/
def allocGroup : List Student → List String → List (String × String)
  | [], _ => []
  | s :: rest, avail =>
    match (s.getBestAvailableFaculty avail).1 with
    | some f =>
      if f = "" then (s.roll, UNALLOCATED) :: allocGroup rest avail
      else (s.roll, f) :: allocGroup rest (avail.erase f)
    | none => (s.roll, UNALLOCATED) :: allocGroup rest avail

/-- `AllocationEngine.allocate`, per cohort: sort by merit, chunk into
groups, and run the greedy pass on each group with a fresh pool
`set(self.faculty_list)`. -/
def cohortAllocations (students : List Student) (facultyList : List String) :
    List (List (String × String)) :=
  (createGroups facultyList.length (sortStudentsByMerit students)).map
    (fun g => allocGroup g facultyList.dedup)

/-- `AllocationEngine.allocate`: the cumulative roll → faculty mapping, in
insertion order. -/
def allocate (students : List Student) (facultyList : List String) :
    List (String × String) :=
  (cohortAllocations students facultyList).flatten

/-- The fields set by `AllocationEngine.__init__`. -/
structure AllocationEngine where
  students : List Student
  facultyList : List String
  numStudents : Nat
  numFaculty : Nat
  numGroups : Nat
deriving Repr

/-- `AllocationEngine.__init__`: `math.ceil(num_students / num_faculty)`
raises `ZeroDivisionError` when the faculty count is zero, so construction
is fallible; on a nonzero count the ceiling division is exact. -/
def mkEngine (students : List Student) (facultyList : List String) :
    Option AllocationEngine :=
  if facultyList.length = 0 then none
  else some
    { students := students
      facultyList := facultyList
      numStudents := students.length
      numFaculty := facultyList.length
      numGroups := (students.length + facultyList.length - 1) / facultyList.length }

/-- `student.preferences.get(faculty, 0)` as used by both statistics
passes: the stated rank, defaulting to `0` when the faculty is missing. -/
def prefRankD (s : Student) (fac : String) : Int :=
  (s.preferences.lookup fac).getD 0

/-- One cell `stats[fac][r]` of the raw preference histogram
(`AllocationEngine.get_faculty_statistics`): for every student and every
occurrence of `fac` in the faculty-list loop, count 1 when the student's
stated rank for `fac` is `r` and lies in `1..F` (so the value is the
student count times the multiplicity of `fac` in the list; for the
distinct faculty names of the data model that multiplicity is 1). -/
def cellCount (students : List Student) (facultyList : List String)
    (fac : String) (r : Nat) : Nat :=
  facultyList.count fac * students.countP fun s =>
    decide (1 ≤ prefRankD s fac) &&
      decide (prefRankD s fac ≤ (facultyList.length : Int)) &&
      (prefRankD s fac == (r : Int))

/-- Sum over all `(faculty, rank)` cells of the raw preference histogram:
one row per faculty in list order, cells `Count Pref 1 .. Count Pref F`. -/
def histTotal (students : List Student) (facultyList : List String) : Nat :=
  (facultyList.map fun fac =>
    ((List.range facultyList.length).map fun k =>
      cellCount students facultyList fac (k + 1)).sum).sum

/-- One cell of the allocation-outcome histogram
(`AllocationEngine.get_allocation_preference_statistics`), over students
paired with their `allocated_faculty` field: a student counts in cell
`(fac, r)` only when allocated (truthily) to `fac`, `fac` is in the
faculty list, and the student's stated rank for `fac` is `r ∈ 1..F`. -/
def allocCellCount (studentAllocs : List (Student × Option String))
    (facultyList : List String) (fac : String) (r : Nat) : Nat :=
  studentAllocs.countP fun p =>
    match p.2 with
    | some af =>
      !(af == "") && decide (af ∈ facultyList) && (af == fac) &&
        decide (1 ≤ prefRankD p.1 af) &&
        decide (prefRankD p.1 af ≤ (facultyList.length : Int)) &&
        (prefRankD p.1 af == (r : Int))
    | none => false

/-- The structured result of `validate_data`. -/
structure ValidationReport where
  valid : Bool
  issues : List String
  warnings : List String
  numStudents : Nat
  numFaculty : Nat
deriving Repr

/-- `validate_data`: hard issues (emptiness, duplicate rolls) versus soft
warnings (rank out of `1..F`, duplicate ranks within one student, unusual
CGPA); `valid` is `len(issues) == 0`. -/
def validateData (students : List Student) (facultyList : List String) :
    ValidationReport :=
  let numStudents := students.length
  let numFaculty := facultyList.length
  let issues :=
    (if numStudents = 0 then ["No students found in input file"] else []) ++
    (if numFaculty = 0 then ["No faculty found in input file"] else []) ++
    (if (students.map Student.roll).Nodup then []
     else ["Duplicate roll numbers found"])
  let rangeWarnings := students.flatMap fun s =>
    (s.preferences.filter fun p => decide (p.2 < 1) || decide (p.2 > (numFaculty : Int))).map
      fun p => "Student " ++ s.roll ++ " has invalid preference " ++
        toString p.2 ++ " for " ++ p.1
  let dupWarnings := students.filterMap fun s =>
    if (s.preferences.map Prod.snd).Nodup then none
    else some ("Student " ++ s.roll ++ " has duplicate preference ranks")
  let cgpaWarnings := students.filterMap fun s =>
    if s.cgpa < 0 ∨ s.cgpa > 10 then
      some ("Student " ++ s.roll ++ " has unusual CGPA: " ++ toString s.cgpa)
    else none
  { valid := issues.length = 0
    issues := issues
    warnings := rangeWarnings ++ dupWarnings ++ cgpaWarnings
    numStudents := numStudents
    numFaculty := numFaculty }

/-- Two students that agree on every field except possibly the preference
map, which may differ only when the roll is `b`.  Used to compare two
runs of `allocate` whose inputs differ only in student `b`'s preferences. -/
def SameExceptPrefs (b : String) (s t : Student) : Prop :=
  s.roll = t.roll ∧ s.name = t.name ∧ s.email = t.email ∧ s.cgpa = t.cgpa ∧
    (s.roll ≠ b → s.preferences = t.preferences)

instance : IsTotal Student keyLe where
  total a b := by
    unfold keyLe
    rcases lt_trichotomy a.cgpa b.cgpa with h | h | h
    · exact Or.inr (Or.inl h)
    · rcases le_total a.roll b.roll with hr | hr
      · exact Or.inl (Or.inr ⟨h, hr⟩)
      · exact Or.inr (Or.inr ⟨h.symm, hr⟩)
    · exact Or.inl (Or.inl h)

instance : IsTrans Student keyLe where
  trans a b c hab hbc := by
    unfold keyLe at hab hbc ⊢
    rcases hab with h1 | ⟨h1, h1r⟩
    · rcases hbc with h2 | ⟨h2, _⟩
      · exact Or.inl (h2.trans h1)
      · exact Or.inl (h2 ▸ h1)
    · rcases hbc with h2 | ⟨h2, h2r⟩
      · exact Or.inl (by rw [h1]; exact h2)
      · exact Or.inr ⟨h1.trans h2, h1r.trans h2r⟩

/-! ### Basic lemmas about `createGroups` -/

theorem createGroupsAux_congr (F : Nat) (hF : 1 ≤ F) :
    ∀ fuel₁ fuel₂ (l : List Student), l.length ≤ fuel₁ → l.length ≤ fuel₂ →
      createGroupsAux F fuel₁ l = createGroupsAux F fuel₂ l := by
  intro fuel₁
  induction fuel₁ with
  | zero =>
    intro fuel₂ l h1 _
    have hl : l = [] := by
      cases l with
      | nil => rfl
      | cons a t => simp at h1
    subst hl
    cases fuel₂ <;> rfl
  | succ n ih =>
    intro fuel₂ l h1 h2
    cases l with
    | nil => cases fuel₂ <;> rfl
    | cons s rest =>
      cases fuel₂ with
      | zero => simp at h2
      | succ m =>
        simp only [createGroupsAux]
        congr 1
        have hd : ((s :: rest).drop F).length = rest.length + 1 - F := by
          simp [List.length_drop]
        simp only [List.length_cons] at h1 h2
        apply ih
        · rw [hd]; omega
        · rw [hd]; omega

theorem createGroups_nil (F : Nat) : createGroups F [] = [] := rfl

theorem createGroups_cons (F : Nat) (hF : 1 ≤ F) (l : List Student) (hl : l ≠ []) :
    createGroups F l = l.take F :: createGroups F (l.drop F) := by
  cases l with
  | nil => exact absurd rfl hl
  | cons s rest =>
    show createGroupsAux F (rest.length + 1) (s :: rest) = _
    simp only [createGroupsAux]
    congr 1
    apply createGroupsAux_congr F hF
    · simp only [List.length_drop, List.length_cons]
      omega
    · exact le_rfl

theorem createGroups_ne_nil (F : Nat) (hF : 1 ≤ F) (l : List Student) (hl : l ≠ []) :
    createGroups F l ≠ [] := by
  rw [createGroups_cons F hF l hl]
  exact List.cons_ne_nil _ _

theorem createGroups_flatten (F : Nat) (hF : 1 ≤ F) (l : List Student) :
    (createGroups F l).flatten = l := by
  have H : ∀ n (l : List Student), l.length ≤ n → (createGroups F l).flatten = l := by
    intro n
    induction n with
    | zero =>
      intro l hl
      have : l = [] := by cases l with
        | nil => rfl
        | cons a t => simp at hl
      subst this; rfl
    | succ n ih =>
      intro l hl
      by_cases h0 : l = []
      · subst h0; rfl
      · rw [createGroups_cons F hF l h0, List.flatten_cons,
          ih (l.drop F) (by
            have h1 : 0 < l.length := List.length_pos.2 h0
            simp only [List.length_drop]
            omega)]
        exact List.take_append_drop F l
  exact H l.length l le_rfl

theorem createGroups_length (F : Nat) (hF : 1 ≤ F) (l : List Student) :
    (createGroups F l).length = (l.length + F - 1) / F := by
  have H : ∀ n (l : List Student), l.length ≤ n →
      (createGroups F l).length = (l.length + F - 1) / F := by
    intro n
    induction n with
    | zero =>
      intro l hl
      have : l = [] := by cases l with
        | nil => rfl
        | cons a t => simp at hl
      subst this
      have h2 : (F - 1) / F = 0 := Nat.div_eq_of_lt (by omega)
      simp [createGroups_nil, h2]
    | succ n ih =>
      intro l hl
      by_cases h0 : l = []
      · subst h0
        have h2 : (F - 1) / F = 0 := Nat.div_eq_of_lt (by omega)
        simp [createGroups_nil, h2]
      · have hpos : 0 < l.length := List.length_pos.2 h0
        rw [createGroups_cons F hF l h0, List.length_cons,
          ih (l.drop F) (by simp only [List.length_drop]; omega)]
        simp only [List.length_drop]
        have h3 : l.length + F - 1 = (l.length - 1) + F := by omega
        rw [h3, Nat.add_div_right _ (by omega)]
        rcases le_or_lt l.length F with hle | hle
        · have h1 : l.length - F + F - 1 = F - 1 := by omega
          have h2 : (F - 1) / F = 0 := Nat.div_eq_of_lt (by omega)
          have h5 : (l.length - 1) / F = 0 := Nat.div_eq_of_lt (by omega)
          rw [h1, h2, h5]
        · have h4 : l.length - F + F - 1 = (l.length - F - 1) + F := by omega
          have h5 : l.length - 1 = (l.length - F - 1) + F := by omega
          rw [h4, h5, Nat.add_div_right _ (by omega)]
  exact H l.length l le_rfl

theorem createGroups_mem_sizes (F : Nat) (hF : 1 ≤ F) (l : List Student) :
    ∀ g ∈ createGroups F l, g.length ≤ F ∧ g ≠ [] := by
  have H : ∀ n (l : List Student), l.length ≤ n →
      ∀ g ∈ createGroups F l, g.length ≤ F ∧ g ≠ [] := by
    intro n
    induction n with
    | zero =>
      intro l hl
      have : l = [] := by cases l with
        | nil => rfl
        | cons a t => simp at hl
      subst this; simp [createGroups_nil]
    | succ n ih =>
      intro l hl g hg
      by_cases h0 : l = []
      · subst h0; simp [createGroups_nil] at hg
      · have hpos : 0 < l.length := List.length_pos.2 h0
        rw [createGroups_cons F hF l h0] at hg
        rcases List.mem_cons.1 hg with hg | hg
        · subst hg
          refine ⟨by simp, ?_⟩
          simp only [ne_eq, List.take_eq_nil_iff]
          push_neg
          constructor
          · omega
          · exact h0
        · exact ih (l.drop F) (by simp only [List.length_drop]; omega) g hg
  exact H l.length l le_rfl

theorem createGroups_dropLast (F : Nat) (hF : 1 ≤ F) (l : List Student) :
    ∀ g ∈ (createGroups F l).dropLast, g.length = F := by
  have H : ∀ n (l : List Student), l.length ≤ n →
      ∀ g ∈ (createGroups F l).dropLast, g.length = F := by
    intro n
    induction n with
    | zero =>
      intro l hl
      have : l = [] := by cases l with
        | nil => rfl
        | cons a t => simp at hl
      subst this; simp [createGroups_nil]
    | succ n ih =>
      intro l hl g hg
      by_cases h0 : l = []
      · subst h0; simp [createGroups_nil] at hg
      · have hpos : 0 < l.length := List.length_pos.2 h0
        rw [createGroups_cons F hF l h0] at hg
        by_cases hd : l.drop F = []
        · rw [hd, createGroups_nil] at hg
          simp at hg
        · have hrec : createGroups F (l.drop F) ≠ [] := createGroups_ne_nil F hF _ hd
          rw [List.dropLast_cons_of_ne_nil hrec] at hg
          rcases List.mem_cons.1 hg with hg | hg
          · subst hg
            have hlen : F < l.length := by
              have := List.length_drop F l
              have h1 : 0 < (l.drop F).length := List.length_pos.2 hd
              omega
            simp [List.length_take]
            omega
          · exact ih (l.drop F)
              (by simp only [List.length_drop]; omega) g hg
  exact H l.length l le_rfl

/-! ### Lemmas about the best-available-faculty scan -/

theorem bestAux_correct (s : Student) :
    ∀ (l : List String) (bf : Option String) (br : Option Int),
      (bf = none → br = none) →
      (∀ f0, bf = some f0 → s.preferences.lookup f0 = br ∧ br ≠ none) →
      ((bestAux s l (bf, br)).1 = none →
        bf = none ∧ ∀ g ∈ l, s.preferences.lookup g = none) ∧
      (∀ f, (bestAux s l (bf, br)).1 = some f →
        (f ∈ l ∨ bf = some f) ∧
        ∃ r, s.preferences.lookup f = some r ∧
          (∀ r0, br = some r0 → r ≤ r0) ∧
          (∀ g ∈ l, ∀ rg, s.preferences.lookup g = some rg → r ≤ rg)) := by
  intro l
  induction l with
  | nil =>
    intro bf br h1 h2
    constructor
    · intro h
      exact ⟨h, by simp⟩
    · intro f hf
      rcases h2 f hf with ⟨hlook, hne⟩
      rcases br with _ | r0
      · exact absurd rfl hne
      · exact ⟨Or.inr hf, r0, hlook, fun r1 h => by injection h with h; omega,
          by simp⟩
  | cons f0 rest ih =>
    intro bf br h1 h2
    by_cases hlt : ltI (s.preferences.lookup f0) br = true
    · -- the scan updates the best candidate to f0
      have hr : ∃ x, s.preferences.lookup f0 = some x := by
        rcases hf : s.preferences.lookup f0 with _ | x
        · rw [hf] at hlt; simp [ltI] at hlt
        · exact ⟨x, rfl⟩
      rcases hr with ⟨x, hx⟩
      have hstep : bestAux s (f0 :: rest) (bf, br) =
          bestAux s rest (some f0, s.preferences.lookup f0) := by
        simp only [bestAux, hlt, if_true]
      rcases ih (some f0) (s.preferences.lookup f0)
          (by intro h; exact absurd h (by simp))
          (by intro g hg; injection hg with hg; subst hg; exact ⟨rfl, by rw [hx]; simp⟩)
        with ⟨ihn, ihs⟩
      constructor
      · intro h
        rw [hstep] at h
        rcases ihn h with ⟨h, _⟩
        exact absurd h (by simp)
      · intro f hf
        rw [hstep] at hf
        rcases ihs f hf with ⟨hmem, r, hlook, hmin0, hminl⟩
        refine ⟨?_, r, hlook, ?_, ?_⟩
        · rcases hmem with hm | hm
          · exact Or.inl (List.mem_cons_of_mem _ hm)
          · injection hm with hm; subst hm; exact Or.inl (List.mem_cons_self _ _)
        · intro r0 hr0
          have hrx : r ≤ x := hmin0 x (by rw [hx])
          rw [hr0, hx] at hlt
          simp only [ltI, decide_eq_true_eq] at hlt
          omega
        · intro g hg rg hrg
          rcases List.mem_cons.1 hg with hg | hg
          · subst hg
            rw [hrg] at hx
            injection hx with hx
            subst hx
            exact hmin0 rg (by rw [hrg])
          · exact hminl g hg rg hrg
    · -- the candidate is kept
      have hstep : bestAux s (f0 :: rest) (bf, br) = bestAux s rest (bf, br) := by
        simp only [bestAux, hlt, if_false]
        simp [Bool.not_eq_true] at hlt
        simp [hlt]
      rcases ih bf br h1 h2 with ⟨ihn, ihs⟩
      constructor
      · intro h
        rw [hstep] at h
        rcases ihn h with ⟨hbf, hall⟩
        refine ⟨hbf, ?_⟩
        intro g hg
        rcases List.mem_cons.1 hg with hg | hg
        · subst hg
          have hbrn : br = none := h1 hbf
          rw [hbrn] at hlt
          rcases hf : s.preferences.lookup g with _ | x
          · rfl
          · rw [hf] at hlt; simp [ltI] at hlt
        · exact hall g hg
      · intro f hf
        rw [hstep] at hf
        rcases ihs f hf with ⟨hmem, r, hlook, hmin0, hminl⟩
        refine ⟨?_, r, hlook, hmin0, ?_⟩
        · rcases hmem with hm | hm
          · exact Or.inl (List.mem_cons_of_mem _ hm)
          · exact Or.inr hm
        · intro g hg rg hrg
          rcases List.mem_cons.1 hg with hg | hg
          · subst hg
            rcases br with _ | r0
            · rw [hrg] at hlt
              simp [ltI] at hlt
            · rw [hrg] at hlt
              simp only [ltI, decide_eq_true_eq] at hlt
              have : r ≤ r0 := hmin0 r0 rfl
              omega
          · exact hminl g hg rg hrg

theorem bestAux_all_none (s : Student) :
    ∀ l : List String, (∀ g ∈ l, s.preferences.lookup g = none) →
      bestAux s l (none, none) = (none, none) := by
  intro l
  induction l with
  | nil => intro _; rfl
  | cons f rest ih =>
    intro h
    have hf : s.preferences.lookup f = none := h f (List.mem_cons_self _ _)
    simp only [bestAux, hf, ltI, if_false]
    exact ih fun g hg => h g (List.mem_cons_of_mem _ hg)

/-- The scan returns no faculty exactly when no available faculty appears
in the student's preference map (all ranks are `inf`). -/
theorem getBest_none_iff (s : Student) (avail : List String) :
    (s.getBestAvailableFaculty avail).1 = none ↔
      ∀ g ∈ avail, s.preferences.lookup g = none := by
  constructor
  · intro h
    exact ((bestAux_correct s avail none none (fun _ => rfl)
      (fun f0 h0 => by simp at h0)).1 h).2
  · intro h
    show (bestAux s avail (none, none)).1 = none
    rw [bestAux_all_none s avail h]

/-- When the scan returns a faculty, it is available, has a stated (finite)
rank, and that rank is minimal among all stated ranks of available
faculty. -/
theorem getBest_some (s : Student) (avail : List String) (f : String)
    (h : (s.getBestAvailableFaculty avail).1 = some f) :
    f ∈ avail ∧ ∃ r, s.preferences.lookup f = some r ∧
      ∀ g ∈ avail, ∀ rg, s.preferences.lookup g = some rg → r ≤ rg := by
  rcases (bestAux_correct s avail none none (fun _ => rfl)
      (fun f0 h0 => by simp at h0)).2 f h with ⟨hmem, r, hlook, _, hmin⟩
  rcases hmem with hm | hm
  · exact ⟨hm, r, hlook, hmin⟩
  · simp at hm

/-! ### Lemmas about the per-cohort greedy pass -/

theorem allocGroup_cons_none (s : Student) (rest : List Student) (avail : List String)
    (hb : (s.getBestAvailableFaculty avail).1 = none) :
    allocGroup (s :: rest) avail = (s.roll, UNALLOCATED) :: allocGroup rest avail := by
  simp [allocGroup, hb]

theorem allocGroup_cons_empty (s : Student) (rest : List Student) (avail : List String)
    (f : String) (hb : (s.getBestAvailableFaculty avail).1 = some f) (hf : f = "") :
    allocGroup (s :: rest) avail = (s.roll, UNALLOCATED) :: allocGroup rest avail := by
  simp [allocGroup, hb, hf]

theorem allocGroup_cons_some (s : Student) (rest : List Student) (avail : List String)
    (f : String) (hb : (s.getBestAvailableFaculty avail).1 = some f) (hf : f ≠ "") :
    allocGroup (s :: rest) avail = (s.roll, f) :: allocGroup rest (avail.erase f) := by
  simp [allocGroup, hb, hf]

theorem allocGroup_length :
    ∀ (g : List Student) (avail : List String),
      (allocGroup g avail).length = g.length := by
  intro g
  induction g with
  | nil => intro avail; rfl
  | cons s rest ih =>
    intro avail
    simp only [allocGroup]
    rcases hb : (s.getBestAvailableFaculty avail).1 with _ | f
    · simp [ih]
    · by_cases hf : f = ""
      · simp [hf, ih]
      · simp [hf, ih]

theorem allocGroup_keys :
    ∀ (g : List Student) (avail : List String),
      (allocGroup g avail).map Prod.fst = g.map Student.roll := by
  intro g
  induction g with
  | nil => intro avail; rfl
  | cons s rest ih =>
    intro avail
    simp only [allocGroup]
    rcases hb : (s.getBestAvailableFaculty avail).1 with _ | f
    · simp [ih]
    · by_cases hf : f = ""
      · simp [hf, ih]
      · simp [hf, ih]

theorem allocGroup_values :
    ∀ (g : List Student) (avail : List String) (p : String × String),
      p ∈ allocGroup g avail → p.2 = UNALLOCATED ∨ p.2 ∈ avail := by
  intro g
  induction g with
  | nil => intro avail p hp; simp [allocGroup] at hp
  | cons s rest ih =>
    intro avail p hp
    rcases hb : (s.getBestAvailableFaculty avail).1 with _ | f
    · rw [allocGroup_cons_none s rest avail hb] at hp
      rcases List.mem_cons.1 hp with hp | hp
      · subst hp; exact Or.inl rfl
      · exact ih avail p hp
    · by_cases hf : f = ""
      · rw [allocGroup_cons_empty s rest avail f hb hf] at hp
        rcases List.mem_cons.1 hp with hp | hp
        · subst hp; exact Or.inl rfl
        · exact ih avail p hp
      · rw [allocGroup_cons_some s rest avail f hb hf] at hp
        rcases List.mem_cons.1 hp with hp | hp
        · subst hp
          exact Or.inr (getBest_some s avail f hb).1
        · rcases ih _ p hp with h | h
          · exact Or.inl h
          · exact Or.inr (List.erase_subset _ _ h)

/-- Within one cohort, two entries that are both real faculty assignments
(not the sentinel) are distinct: each assignment removes the chosen
faculty from the (duplicate-free) pool. -/
theorem allocGroup_pairwise :
    ∀ (g : List Student) (avail : List String), avail.Nodup →
      (allocGroup g avail).Pairwise
        (fun p q => p.2 ≠ UNALLOCATED → q.2 ≠ UNALLOCATED → p.2 ≠ q.2) := by
  intro g
  induction g with
  | nil => intro avail _; simp [allocGroup]
  | cons s rest ih =>
    intro avail hnd
    rcases hb : (s.getBestAvailableFaculty avail).1 with _ | f
    · rw [allocGroup_cons_none s rest avail hb]
      refine List.Pairwise.cons ?_ (ih avail hnd)
      intro q _ hp _
      exact absurd rfl hp
    · by_cases hf : f = ""
      · rw [allocGroup_cons_empty s rest avail f hb hf]
        refine List.Pairwise.cons ?_ (ih avail hnd)
        intro q _ hp _
        exact absurd rfl hp
      · rw [allocGroup_cons_some s rest avail f hb hf]
        refine List.Pairwise.cons ?_ (ih _ (hnd.erase f))
        intro q hq _ hq2 heq
        rcases allocGroup_values _ _ q hq with h | h
        · exact hq2 h
        · rw [← heq] at h
          exact List.Nodup.not_mem_erase hnd h

/-! ### Two runs that differ only in one student's preferences -/

theorem sameExceptPrefs_keyLe (b : String) {a1 a2 c1 c2 : Student}
    (ha : SameExceptPrefs b a1 a2) (hc : SameExceptPrefs b c1 c2) :
    keyLe a1 c1 ↔ keyLe a2 c2 := by
  rcases ha with ⟨har, _, _, hac, _⟩
  rcases hc with ⟨hcr, _, _, hcc, _⟩
  unfold keyLe
  rw [har, hac, hcr, hcc]

theorem orderedInsert_forall₂ (b : String) {a1 a2 : Student}
    {l1 l2 : List Student} (ha : SameExceptPrefs b a1 a2)
    (h : List.Forall₂ (SameExceptPrefs b) l1 l2) :
    List.Forall₂ (SameExceptPrefs b)
      (l1.orderedInsert keyLe a1) (l2.orderedInsert keyLe a2) := by
  induction h with
  | nil => exact List.Forall₂.cons ha List.Forall₂.nil
  | @cons x y t1 t2 hxy hrest ih =>
    by_cases hc : keyLe a1 x
    · rw [List.orderedInsert_of_le keyLe t1 hc,
        List.orderedInsert_of_le keyLe t2 ((sameExceptPrefs_keyLe b ha hxy).1 hc)]
      exact List.Forall₂.cons ha (List.Forall₂.cons hxy hrest)
    · have hc2 : ¬ keyLe a2 y := fun h2 =>
        hc ((sameExceptPrefs_keyLe b ha hxy).2 h2)
      simp only [List.orderedInsert, if_neg hc, if_neg hc2]
      exact List.Forall₂.cons hxy ih

theorem insertionSort_forall₂ (b : String) {l1 l2 : List Student}
    (h : List.Forall₂ (SameExceptPrefs b) l1 l2) :
    List.Forall₂ (SameExceptPrefs b)
      (l1.insertionSort keyLe) (l2.insertionSort keyLe) := by
  induction h with
  | nil => exact List.Forall₂.nil
  | cons hxy hrest ih =>
    simp only [List.insertionSort]
    exact orderedInsert_forall₂ b hxy ih

theorem sameExceptPrefs_eq (b : String) {s t : Student}
    (h : SameExceptPrefs b s t) (hr : s.roll ≠ b) : s = t := by
  rcases h with ⟨h1, h2, h3, h4, h5⟩
  have h5 := h5 hr
  cases s
  cases t
  simp only at h1 h2 h3 h4 h5
  simp [h1, h2, h3, h4, h5]

/-- If two cohorts agree on their first `k` students, the greedy pass
produces the same first `k` results on both (with the same faculty pool
evolving identically). -/
theorem allocGroup_take_eq :
    ∀ (k : Nat) (g1 g2 : List Student) (avail : List String),
      g1.take k = g2.take k →
      (allocGroup g1 avail).take k = (allocGroup g2 avail).take k := by
  intro k
  induction k with
  | zero => intro g1 g2 avail _; simp
  | succ k ih =>
    intro g1 g2 avail h
    cases g1 with
    | nil =>
      cases g2 with
      | nil => rfl
      | cons t r2 => simp [List.take_succ_cons] at h
    | cons s r1 =>
      cases g2 with
      | nil => simp [List.take_succ_cons] at h
      | cons t r2 =>
        simp only [List.take_succ_cons, List.cons.injEq] at h
        rcases h with ⟨hst, hr⟩
        subst hst
        rcases hb : (s.getBestAvailableFaculty avail).1 with _ | f
        · rw [allocGroup_cons_none s r1 avail hb, allocGroup_cons_none s r2 avail hb,
            List.take_succ_cons, List.take_succ_cons, ih r1 r2 avail hr]
        · by_cases hf : f = ""
          · rw [allocGroup_cons_empty s r1 avail f hb hf,
              allocGroup_cons_empty s r2 avail f hb hf,
              List.take_succ_cons, List.take_succ_cons, ih r1 r2 avail hr]
          · rw [allocGroup_cons_some s r1 avail f hb hf,
              allocGroup_cons_some s r2 avail f hb hf,
              List.take_succ_cons, List.take_succ_cons, ih r1 r2 _ hr]

/-- If two (sorted) student sequences have the same length and agree on
their first `k` entries, the flattened per-group allocation agrees on its
first `k` entries. -/
theorem allocChunks_take_eq (F : Nat) (hF : 1 ≤ F) (pool : List String) :
    ∀ (k : Nat) (l1 l2 : List Student), l1.length = l2.length →
      l1.take k = l2.take k →
      (((createGroups F l1).map fun g => allocGroup g pool).flatten).take k =
        (((createGroups F l2).map fun g => allocGroup g pool).flatten).take k := by
  have H : ∀ n (k : Nat) (l1 l2 : List Student), l1.length ≤ n →
      l1.length = l2.length → l1.take k = l2.take k →
      (((createGroups F l1).map fun g => allocGroup g pool).flatten).take k =
        (((createGroups F l2).map fun g => allocGroup g pool).flatten).take k := by
    intro n
    induction n with
    | zero =>
      intro k l1 l2 h1 hlen _
      have e1 : l1 = [] := by cases l1 with
        | nil => rfl
        | cons a t => simp at h1
      have e2 : l2 = [] := by
        subst e1
        cases l2 with
        | nil => rfl
        | cons a t => simp at hlen
      subst e1; subst e2; rfl
    | succ n ih =>
      intro k l1 l2 h1 hlen htake
      by_cases h0 : l1 = []
      · have e2 : l2 = [] := by
          subst h0
          cases l2 with
          | nil => rfl
          | cons a t => simp at hlen
        subst h0; subst e2; rfl
      · have h02 : l2 ≠ [] := by
          intro h2
          subst h2
          simp at hlen
          exact h0 hlen
        rw [createGroups_cons F hF l1 h0, createGroups_cons F hF l2 h02]
        simp only [List.map_cons, List.flatten_cons]
        rw [List.take_append_eq_append_take, List.take_append_eq_append_take]
        have hlen1 : (allocGroup (l1.take F) pool).length = min F l1.length := by
          rw [allocGroup_length, List.length_take]
        have hlen2 : (allocGroup (l2.take F) pool).length = min F l2.length := by
          rw [allocGroup_length, List.length_take]
        have hminEq : min F l1.length = min F l2.length := by rw [hlen]
        have hA : (allocGroup (l1.take F) pool).take k =
            (allocGroup (l2.take F) pool).take k := by
          apply allocGroup_take_eq
          rw [List.take_take, List.take_take, Nat.min_comm k F, ← List.take_take,
            ← List.take_take (m := k), htake]
        have hB : ((((createGroups F (l1.drop F)).map fun g => allocGroup g pool).flatten).take
              (k - (allocGroup (l1.take F) pool).length)) =
            ((((createGroups F (l2.drop F)).map fun g => allocGroup g pool).flatten).take
              (k - (allocGroup (l2.take F) pool).length)) := by
          rw [hlen1, hlen2, ← hminEq]
          apply ih
          · have hp : 0 < l1.length := List.length_pos.2 h0
            simp only [List.length_drop]
            omega
          · simp only [List.length_drop, hlen]
          · have := congrArg (List.drop F) htake
            rw [List.drop_take, List.drop_take] at this
            rcases le_or_lt F l1.length with hFl | hFl
            · have hm : min F l1.length = F := by omega
              rw [hm]
              exact this
            · have e1 : l1.drop F = [] := by
                apply List.drop_eq_nil_of_le
                omega
              have e2 : l2.drop F = [] := by
                apply List.drop_eq_nil_of_le
                omega
              rw [e1, e2]
        rw [hA, hB]
  intro k l1 l2 hlen htake
  exact H l1.length k l1 l2 le_rfl hlen htake

theorem forall₂_eq_of_roll_ne (b : String) :
    ∀ {l1 l2 : List Student}, List.Forall₂ (SameExceptPrefs b) l1 l2 →
      (∀ x ∈ l1, x.roll ≠ b) → l1 = l2 := by
  intro l1 l2 h
  induction h with
  | nil => intro _; rfl
  | @cons x y t1 t2 hxy hrest ih =>
    intro hne
    rw [sameExceptPrefs_eq b hxy (hne x (List.mem_cons_self _ _)),
      ih fun z hz => hne z (List.mem_cons_of_mem _ hz)]

/-! ### Claim theorems -/

/-- C1, counterexample to the claim as stated: with one student whose
preference map is empty and one available faculty `"X"`, the pool at the
student's turn is non-empty (every rank is infinite), yet
`AllocationEngine.allocate` marks the student `UNALLOCATED` instead of
assigning the best (infinite-rank) faculty: `best_rank` starts at `inf`
and `rank < best_rank` never fires, so `best_faculty` stays `None`. -/
theorem claim_c1_counterexample :
    ("X" :: ([] : List String)) ≠ [] ∧
      allocate [⟨"r1", "n", "e", 8, []⟩] ["X"] = [("r1", UNALLOCATED)] :=
  ⟨by decide, by rfl⟩

/-- C1 (amended): at each student's turn, if at least one available
faculty has a *finite* rank (appears in the student's preference map) —
and faculty names are non-empty strings — the student is assigned an
available faculty of minimal stated rank (missing faculty count as rank
+inf and are never chosen), and that faculty is removed from the pool for
the rest of the cohort.  If every available faculty is missing from the
student's preference map the student is marked `UNALLOCATED` even though
the pool is non-empty. -/
theorem claim_c1_greedy_step (s : Student) (rest : List Student)
    (avail : List String)
    (hne : ∃ f ∈ avail, (s.preferences.lookup f).isSome)
    (hnames : ∀ f ∈ avail, f ≠ "") :
    ∃ f r, (s.getBestAvailableFaculty avail).1 = some f ∧ f ∈ avail ∧
      s.preferences.lookup f = some r ∧
      (∀ g ∈ avail, ∀ rg, s.preferences.lookup g = some rg → r ≤ rg) ∧
      allocGroup (s :: rest) avail =
        (s.roll, f) :: allocGroup rest (avail.erase f) := by
  rcases hne with ⟨f0, hf0, hsome⟩
  rcases hb : (s.getBestAvailableFaculty avail).1 with _ | f
  · rw [getBest_none_iff] at hb
    rw [hb f0 hf0] at hsome
    simp at hsome
  · rcases getBest_some s avail f hb with ⟨hmem, r, hlook, hmin⟩
    exact ⟨f, r, rfl, hmem, hlook, hmin,
      allocGroup_cons_some s rest avail f hb (hnames f hmem)⟩

theorem claim_c1_witness :
    ∃ f r,
      ((⟨"r1", "n", "e", 8, [("X", 2), ("Y", 1)]⟩ : Student).getBestAvailableFaculty
        ["X", "Y"]).1 = some f ∧
      f ∈ ["X", "Y"] ∧
      (⟨"r1", "n", "e", 8, [("X", 2), ("Y", 1)]⟩ : Student).preferences.lookup f = some r ∧
      (∀ g ∈ ["X", "Y"], ∀ rg,
        (⟨"r1", "n", "e", 8, [("X", 2), ("Y", 1)]⟩ : Student).preferences.lookup g = some rg →
          r ≤ rg) ∧
      allocGroup [⟨"r1", "n", "e", 8, [("X", 2), ("Y", 1)]⟩] ["X", "Y"] =
        ((⟨"r1", "n", "e", 8, [("X", 2), ("Y", 1)]⟩ : Student).roll, f) ::
          allocGroup [] (["X", "Y"].erase f) :=
  claim_c1_greedy_step ⟨"r1", "n", "e", 8, [("X", 2), ("Y", 1)]⟩ [] ["X", "Y"]
    (by decide) (by decide)

/-- C2: within one cohort of `AllocationEngine.allocate`, no faculty
identifier is assigned to two different students: any two entries whose
values are both real assignments (not the `UNALLOCATED` sentinel) carry
distinct faculty identifiers. -/
theorem claim_c2_cohort_uniqueness (students : List Student)
    (facultyList : List String) (c : List (String × String))
    (hc : c ∈ cohortAllocations students facultyList) :
    c.Pairwise (fun p q => p.2 ≠ UNALLOCATED → q.2 ≠ UNALLOCATED → p.2 ≠ q.2) := by
  rcases List.mem_map.1 hc with ⟨g, _, rfl⟩
  exact allocGroup_pairwise g _ (List.nodup_dedup _)

theorem claim_c2_witness :
    List.Pairwise (fun p q : String × String =>
        p.2 ≠ UNALLOCATED → q.2 ≠ UNALLOCATED → p.2 ≠ q.2)
      [("r1", "X"), ("r2", "Y")] :=
  claim_c2_cohort_uniqueness
    [⟨"r1", "n", "e", 9, [("X", 1), ("Y", 2)]⟩,
     ⟨"r2", "n", "e", 8, [("X", 1), ("Y", 2)]⟩]
    ["X", "Y"] [("r1", "X"), ("r2", "Y")] (by decide)

/-- C5: `AllocationEngine.sort_students_by_merit` returns a permutation of
its input sorted by CGPA descending with ties broken by roll ascending
(`keyLe`).  Determinism of the sort is definitional here: the embedding is
a pure function, and both Python's `sorted` and `List.insertionSort` are
stable, so equal inputs give equal outputs. -/
theorem claim_c5_sort_students (students : List Student) :
    (sortStudentsByMerit students).Perm students ∧
      List.Sorted keyLe (sortStudentsByMerit students) :=
  ⟨List.perm_insertionSort keyLe students,
    List.sorted_insertionSort keyLe students⟩

/-- C3: two runs of `AllocationEngine.allocate` on inputs that differ only
in the preference map of the student with roll `b` (merit scores and rolls
unchanged, so the merit order is unchanged) agree on every result entry
strictly before `b`'s position in the merit order (positions `0..i` where
`b` does not occur among the first `i+1` sorted students); and — the
claim's "in particular" — within any cohort of the second run no faculty
is given to two students, so `b` cannot receive a faculty already claimed
by a higher-merit student of its cohort. -/
theorem claim_c3_merit_isolation (b : String) (ss1 ss2 : List Student)
    (fl : List String) (hFl : fl ≠ [])
    (hrel : List.Forall₂ (SameExceptPrefs b) ss1 ss2) (i : Nat)
    (hprec : ∀ st ∈ (sortStudentsByMerit ss1).take (i + 1), st.roll ≠ b) :
    (allocate ss1 fl).take (i + 1) = (allocate ss2 fl).take (i + 1) ∧
      ∀ c ∈ cohortAllocations ss2 fl,
        c.Pairwise (fun p q => p.2 ≠ UNALLOCATED → q.2 ≠ UNALLOCATED → p.2 ≠ q.2) := by
  constructor
  · have hsort := insertionSort_forall₂ b hrel
    have htake : (sortStudentsByMerit ss1).take (i + 1) =
        (sortStudentsByMerit ss2).take (i + 1) :=
      forall₂_eq_of_roll_ne b (List.forall₂_take (i + 1) hsort) hprec
    have hlen : (sortStudentsByMerit ss1).length = (sortStudentsByMerit ss2).length :=
      hsort.length_eq
    have hF : 1 ≤ fl.length := List.length_pos.2 hFl
    exact allocChunks_take_eq fl.length hF fl.dedup (i + 1)
      (sortStudentsByMerit ss1) (sortStudentsByMerit ss2) hlen htake
  · intro c hc
    rcases List.mem_map.1 hc with ⟨g, _, rfl⟩
    exact allocGroup_pairwise g _ (List.nodup_dedup _)

theorem claim_c3_witness :
    (allocate
        [⟨"r1", "n", "e", 9, [("X", 1), ("Y", 2)]⟩,
         ⟨"r2", "n", "e", 8, [("X", 1), ("Y", 2)]⟩] ["X", "Y"]).take 1 =
      (allocate
        [⟨"r1", "n", "e", 9, [("X", 1), ("Y", 2)]⟩,
         ⟨"r2", "n", "e", 8, [("Y", 1), ("X", 2)]⟩] ["X", "Y"]).take 1 ∧
    ∀ c ∈ cohortAllocations
        [⟨"r1", "n", "e", 9, [("X", 1), ("Y", 2)]⟩,
         ⟨"r2", "n", "e", 8, [("Y", 1), ("X", 2)]⟩] ["X", "Y"],
      c.Pairwise (fun p q => p.2 ≠ UNALLOCATED → q.2 ≠ UNALLOCATED → p.2 ≠ q.2) :=
  claim_c3_merit_isolation "r2"
    [⟨"r1", "n", "e", 9, [("X", 1), ("Y", 2)]⟩,
     ⟨"r2", "n", "e", 8, [("X", 1), ("Y", 2)]⟩]
    [⟨"r1", "n", "e", 9, [("X", 1), ("Y", 2)]⟩,
     ⟨"r2", "n", "e", 8, [("Y", 1), ("X", 2)]⟩]
    ["X", "Y"] (by decide)
    (List.Forall₂.cons ⟨rfl, rfl, rfl, rfl, fun _ => rfl⟩
      (List.Forall₂.cons ⟨rfl, rfl, rfl, rfl, fun h => absurd rfl h⟩
        List.Forall₂.nil))
    0 (by decide)

/-- C4: with a non-empty faculty list and pairwise-distinct rolls,
`AllocationEngine.allocate` is total (the embedding is a total function)
and returns exactly one entry per student — the entry keys are a
permutation of the student rolls and are themselves duplicate-free — and
every value is either a faculty identifier from the faculty list or the
`UNALLOCATED` sentinel. -/
theorem claim_c4_coverage (students : List Student) (fl : List String)
    (hFl : fl ≠ []) (hnd : (students.map Student.roll).Nodup) :
    ((allocate students fl).map Prod.fst).Perm (students.map Student.roll) ∧
      ((allocate students fl).map Prod.fst).Nodup ∧
      ∀ p ∈ allocate students fl, p.2 ∈ fl ∨ p.2 = UNALLOCATED := by
  have hF : 1 ≤ fl.length := List.length_pos.2 hFl
  have hkeys : (allocate students fl).map Prod.fst =
      (sortStudentsByMerit students).map Student.roll := by
    show ((createGroups fl.length (sortStudentsByMerit students)).map
        (fun g => allocGroup g fl.dedup)).flatten.map Prod.fst = _
    rw [List.map_flatten, List.map_map]
    have hmaps : ((createGroups fl.length (sortStudentsByMerit students)).map
        (List.map Prod.fst ∘ fun g => allocGroup g fl.dedup)) =
        ((createGroups fl.length (sortStudentsByMerit students)).map
          (List.map Student.roll)) :=
      List.map_congr_left fun g _ => allocGroup_keys g fl.dedup
    rw [hmaps, ← List.map_flatten, createGroups_flatten fl.length hF]
  have hperm : ((allocate students fl).map Prod.fst).Perm
      (students.map Student.roll) := by
    rw [hkeys]
    exact (List.perm_insertionSort keyLe students).map Student.roll
  refine ⟨hperm, hperm.nodup_iff.2 hnd, ?_⟩
  intro p hp
  rcases List.mem_flatten.1 hp with ⟨c, hc, hpc⟩
  rcases List.mem_map.1 hc with ⟨g, _, rfl⟩
  rcases allocGroup_values g fl.dedup p hpc with h | h
  · exact Or.inr h
  · exact Or.inl (List.mem_dedup.1 h)

theorem claim_c4_witness :
    ((allocate [⟨"r1", "n", "e", 8, [("X", 1)]⟩] ["X"]).map Prod.fst).Perm
        ([⟨"r1", "n", "e", 8, [("X", 1)]⟩].map Student.roll) ∧
      ((allocate [⟨"r1", "n", "e", 8, [("X", 1)]⟩] ["X"]).map Prod.fst).Nodup ∧
      ∀ p ∈ allocate [⟨"r1", "n", "e", 8, [("X", 1)]⟩] ["X"],
        p.2 ∈ ["X"] ∨ p.2 = UNALLOCATED :=
  claim_c4_coverage [⟨"r1", "n", "e", 8, [("X", 1)]⟩] ["X"] (by decide) (by decide)

/-- C6: for a non-empty faculty list `fl` (`F = fl.length ≥ 1`),
`AllocationEngine.create_groups` partitions the merit-sorted sequence into
`ceil(n / F)` contiguous slices: concatenating them in order reproduces
the sorted sequence, every cohort is non-empty of size at most `F`, every
cohort but the last has exactly `F` students, and the count equals the
engine's `num_groups` field. -/
theorem claim_c6_create_groups (students : List Student) (fl : List String)
    (hFl : fl ≠ []) :
    (createGroups fl.length (sortStudentsByMerit students)).flatten =
        sortStudentsByMerit students ∧
      (createGroups fl.length (sortStudentsByMerit students)).length =
        (students.length + fl.length - 1) / fl.length ∧
      (∀ g ∈ createGroups fl.length (sortStudentsByMerit students),
        g.length ≤ fl.length ∧ g ≠ []) ∧
      (∀ g ∈ (createGroups fl.length (sortStudentsByMerit students)).dropLast,
        g.length = fl.length) ∧
      ∀ e, mkEngine students fl = some e →
        e.numGroups = (createGroups fl.length (sortStudentsByMerit students)).length := by
  have hF : 1 ≤ fl.length := List.length_pos.2 hFl
  have hslen : (sortStudentsByMerit students).length = students.length :=
    (List.perm_insertionSort keyLe students).length_eq
  refine ⟨createGroups_flatten fl.length hF _, ?_,
    createGroups_mem_sizes fl.length hF _, createGroups_dropLast fl.length hF _, ?_⟩
  · rw [createGroups_length fl.length hF, hslen]
  · intro e he
    rw [mkEngine, if_neg (by omega)] at he
    injection he with he
    rw [← he, createGroups_length fl.length hF, hslen]

theorem claim_c6_witness :
    (createGroups (["X"] : List String).length
        (sortStudentsByMerit [⟨"r1", "n", "e", 8, [("X", 1)]⟩])).flatten =
        sortStudentsByMerit [⟨"r1", "n", "e", 8, [("X", 1)]⟩] ∧
      (createGroups (["X"] : List String).length
        (sortStudentsByMerit [⟨"r1", "n", "e", 8, [("X", 1)]⟩])).length =
        ([(⟨"r1", "n", "e", 8, [("X", 1)]⟩ : Student)].length + (["X"] : List String).length - 1) /
          (["X"] : List String).length ∧
      (∀ g ∈ createGroups (["X"] : List String).length
          (sortStudentsByMerit [⟨"r1", "n", "e", 8, [("X", 1)]⟩]),
        g.length ≤ (["X"] : List String).length ∧ g ≠ []) ∧
      (∀ g ∈ (createGroups (["X"] : List String).length
          (sortStudentsByMerit [⟨"r1", "n", "e", 8, [("X", 1)]⟩])).dropLast,
        g.length = (["X"] : List String).length) ∧
      ∀ e, mkEngine [⟨"r1", "n", "e", 8, [("X", 1)]⟩] ["X"] = some e →
        e.numGroups = (createGroups (["X"] : List String).length
          (sortStudentsByMerit [⟨"r1", "n", "e", 8, [("X", 1)]⟩])).length :=
  claim_c6_create_groups [⟨"r1", "n", "e", 8, [("X", 1)]⟩] ["X"] (by decide)

/-! ### Histogram sum lemmas -/

theorem list_sum_map_add {α : Type} (l : List α) (f g : α → Nat) :
    (l.map fun x => f x + g x).sum = (l.map f).sum + (l.map g).sum := by
  induction l with
  | nil => simp
  | cons a t ih => simp [ih]; omega

theorem list_sum_map_mul_left {α : Type} (l : List α) (c : Nat) (f : α → Nat) :
    (l.map fun x => c * f x).sum = c * (l.map f).sum := by
  induction l with
  | nil => simp
  | cons a t ih => simp [ih, Nat.mul_add]

theorem indicator_sum_zero (F : Nat) (m : Int)
    (h : ∀ k, k < F → m ≠ (k : Int) + 1) :
    ((List.range F).map fun (k : Nat) => if m = (k : Int) + 1 then 1 else 0).sum = 0 := by
  induction F with
  | zero => simp
  | succ F ih =>
    rw [List.range_succ, List.map_append, List.sum_append,
      ih fun k hk => h k (Nat.lt_succ_of_lt hk)]
    simp [h F (Nat.lt_succ_self F)]

theorem indicator_sum_one (F : Nat) (m : Int) (h1 : 1 ≤ m) (h2 : m ≤ (F : Int)) :
    ((List.range F).map fun (k : Nat) => if m = (k : Int) + 1 then 1 else 0).sum = 1 := by
  induction F with
  | zero =>
    exfalso
    have : (0 : Int) < m := h1
    simp at h2
    omega
  | succ F ih =>
    rw [List.range_succ, List.map_append, List.sum_append]
    by_cases hm : m = (F : Int) + 1
    · rw [indicator_sum_zero F m fun k hk => by
        have : (k : Int) < (F : Int) := by exact_mod_cast hk
        omega]
      simp [hm]
    · have h2F : m ≤ (F : Int) := by
        have : m < (F : Int) + 1 := lt_of_le_of_ne (by exact_mod_cast h2) hm
        omega
      rw [ih h2F]
      simp [hm]

/-- Row sum of per-rank counts: when every student has a stated in-range
rank for `fac`, each student is counted in exactly one rank cell. -/
theorem countP_pref_row_sum (fac : String) (F : Nat) (students : List Student)
    (hfa : ∀ s ∈ students, (s.preferences.lookup fac).isSome ∧
      1 ≤ prefRankD s fac ∧ prefRankD s fac ≤ (F : Int)) :
    ((List.range F).map fun k => students.countP fun s =>
      decide (1 ≤ prefRankD s fac) && decide (prefRankD s fac ≤ (F : Int)) &&
        (prefRankD s fac == ((k + 1 : Nat) : Int))).sum = students.length := by
  induction students with
  | nil => simp
  | cons s rest ih =>
    have hs := hfa s (List.mem_cons_self _ _)
    have hrest := fun t ht => hfa t (List.mem_cons_of_mem _ ht)
    have hsplit : ((List.range F).map fun k => (s :: rest).countP fun t =>
        decide (1 ≤ prefRankD t fac) && decide (prefRankD t fac ≤ (F : Int)) &&
          (prefRankD t fac == ((k + 1 : Nat) : Int))).sum =
        ((List.range F).map fun k => rest.countP fun t =>
          decide (1 ≤ prefRankD t fac) && decide (prefRankD t fac ≤ (F : Int)) &&
            (prefRankD t fac == ((k + 1 : Nat) : Int))).sum +
        ((List.range F).map fun (k : Nat) =>
          if prefRankD s fac = (k : Int) + 1 then 1 else 0).sum := by
      rw [← list_sum_map_add]
      apply congrArg
      apply List.map_congr_left
      intro k _
      rw [List.countP_cons]
      congr 1
      have e1 : decide (1 ≤ prefRankD s fac) = true := decide_eq_true hs.2.1
      have e2 : decide (prefRankD s fac ≤ (F : Int)) = true := decide_eq_true hs.2.2
      simp only [e1, e2, Bool.true_and, beq_iff_eq]
      have ec : (((k + 1 : Nat)) : Int) = (k : Int) + 1 := by push_cast; ring
      rw [ec]
    rw [hsplit, ih hrest, indicator_sum_one F (prefRankD s fac) hs.2.1 hs.2.2]
    simp [List.length_cons]

/-- C7, counterexample to the claim as stated: a student with an empty
preference map contributes to no histogram cell, so the total falls short
of `students × F` (here `0 ≠ 1 × 1`). -/
theorem claim_c7_counterexample :
    histTotal [⟨"r1", "n", "e", 8, []⟩] ["X"] ≠
      [(⟨"r1", "n", "e", 8, []⟩ : Student)].length * (["X"] : List String).length := by
  decide

/-- C7 (amended): the raw-preference histogram total equals
`students × F` provided the faculty names are pairwise distinct (as the
data model requires) and every student states a rank in `1..F` for every
listed faculty; a missing or out-of-range rank is skipped by the
`1 <= rank <= F` guard, making the total smaller. -/
theorem claim_c7_histogram_total (students : List Student) (fl : List String)
    (hnd : fl.Nodup)
    (hcomp : ∀ s ∈ students, ∀ fac ∈ fl, (s.preferences.lookup fac).isSome ∧
      1 ≤ prefRankD s fac ∧ prefRankD s fac ≤ (fl.length : Int)) :
    histTotal students fl = students.length * fl.length := by
  unfold histTotal
  have hrow : ∀ fac ∈ fl,
      ((List.range fl.length).map fun k => cellCount students fl fac (k + 1)).sum =
        students.length := by
    intro fac hfac
    have hc1 : fl.count fac = 1 := List.count_eq_one_of_mem hnd hfac
    unfold cellCount
    rw [list_sum_map_mul_left, hc1, Nat.one_mul]
    exact countP_pref_row_sum fac fl.length students fun s hs => hcomp s hs fac hfac
  rw [List.map_congr_left hrow]
  have : (fl.map fun _ => students.length) = List.replicate fl.length students.length := by
    induction fl with
    | nil => rfl
    | cons a t ih => simp [List.replicate_succ, ih]
  rw [this, List.sum_replicate, smul_eq_mul, Nat.mul_comm]

theorem claim_c7_witness :
    histTotal [⟨"r1", "n", "e", 8, [("X", 1)]⟩] ["X"] =
      [(⟨"r1", "n", "e", 8, [("X", 1)]⟩ : Student)].length *
        (["X"] : List String).length :=
  claim_c7_histogram_total [⟨"r1", "n", "e", 8, [("X", 1)]⟩] ["X"]
    (by decide) (by decide)

/-- C8: `validate_data` reports `valid = False` exactly when a hard
failure is present (no students, no faculty, or duplicate roll numbers);
out-of-range preference ranks and duplicate ranks within one student are
only appended to the warnings list and never affect `valid`. -/
theorem claim_c8_validation (students : List Student) (fl : List String) :
    ((validateData students fl).valid = false ↔
      (students = [] ∨ fl = [] ∨ ¬ (students.map Student.roll).Nodup)) ∧
    (∀ s ∈ students, ∀ p ∈ s.preferences,
      p.2 < 1 ∨ (fl.length : Int) < p.2 →
      ("Student " ++ s.roll ++ " has invalid preference " ++ toString p.2 ++
        " for " ++ p.1) ∈ (validateData students fl).warnings) ∧
    (∀ s ∈ students, ¬ (s.preferences.map Prod.snd).Nodup →
      ("Student " ++ s.roll ++ " has duplicate preference ranks")
        ∈ (validateData students fl).warnings) := by
  refine ⟨?_, ?_, ?_⟩
  · by_cases h1 : students = [] <;> by_cases h2 : fl = [] <;>
      by_cases h3 : (students.map Student.roll).Nodup <;>
      simp [validateData, h1, h2, h3, List.length_eq_zero]
  · intro s hs p hp hcond
    have hpmem : p ∈ s.preferences.filter fun q =>
        decide (q.2 < 1) || decide (q.2 > (fl.length : Int)) := by
      rw [List.mem_filter]
      refine ⟨hp, ?_⟩
      rcases hcond with h | h
      · simp [h]
      · simp [h]
    simp only [validateData, List.mem_append]
    left; left
    rw [List.mem_flatMap]
    exact ⟨s, hs, List.mem_map.2 ⟨p, hpmem, rfl⟩⟩
  · intro s hs hdup
    simp only [validateData, List.mem_append]
    left; right
    rw [List.mem_filterMap]
    exact ⟨s, hs, by rw [if_neg hdup]⟩

theorem claim_c8_witness :
    ("Student " ++ "r1" ++ " has invalid preference " ++ toString (7 : Int) ++
        " for " ++ "X")
      ∈ (validateData [⟨"r1", "n", "e", 8, [("X", 7), ("Y", 7)]⟩] ["X", "Y"]).warnings ∧
    ("Student " ++ "r1" ++ " has duplicate preference ranks")
      ∈ (validateData [⟨"r1", "n", "e", 8, [("X", 7), ("Y", 7)]⟩] ["X", "Y"]).warnings ∧
    (validateData [⟨"r1", "n", "e", 8, [("X", 7), ("Y", 7)]⟩] ["X", "Y"]).valid ≠ false :=
  ⟨(claim_c8_validation [⟨"r1", "n", "e", 8, [("X", 7), ("Y", 7)]⟩] ["X", "Y"]).2.1
      ⟨"r1", "n", "e", 8, [("X", 7), ("Y", 7)]⟩ (by decide) ("X", 7) (by decide)
      (by decide),
   (claim_c8_validation [⟨"r1", "n", "e", 8, [("X", 7), ("Y", 7)]⟩] ["X", "Y"]).2.2
      ⟨"r1", "n", "e", 8, [("X", 7), ("Y", 7)]⟩ (by decide) (by decide),
   fun h =>
     by rcases (claim_c8_validation [⟨"r1", "n", "e", 8, [("X", 7), ("Y", 7)]⟩]
          ["X", "Y"]).1.1 h with h | h | h <;> revert h <;> decide⟩

/-- C9: constructing the engine with a zero faculty count fails (the
`math.ceil(num_students / num_faculty)` in `__init__` raises
`ZeroDivisionError`, modelled as `none`) rather than producing zero
cohorts; with `F ≥ 1` construction succeeds and `num_groups` is the exact
ceiling `(n + F - 1) / F`. -/
theorem claim_c9_zero_faculty (students : List Student) (fl : List String) :
    (students ≠ [] → fl.length = 0 → mkEngine students fl = none) ∧
    (1 ≤ fl.length → ∃ e, mkEngine students fl = some e ∧
      e.numGroups = (students.length + fl.length - 1) / fl.length) := by
  constructor
  · intro _ h0
    simp [mkEngine, h0]
  · intro hF
    exact ⟨_, by rw [mkEngine, if_neg (by omega)], rfl⟩

theorem claim_c9_witness :
    mkEngine [⟨"r1", "n", "e", 8, []⟩] [] = none ∧
    ∃ e, mkEngine [⟨"r1", "n", "e", 8, []⟩] ["X"] = some e ∧
      e.numGroups = ([(⟨"r1", "n", "e", 8, []⟩ : Student)].length +
        (["X"] : List String).length - 1) / (["X"] : List String).length :=
  ⟨(claim_c9_zero_faculty [⟨"r1", "n", "e", 8, []⟩] []).1 (by decide) rfl,
   (claim_c9_zero_faculty [⟨"r1", "n", "e", 8, []⟩] ["X"]).2 (by decide)⟩

/-- C10: a `(student, faculty)` pair whose stated rank is missing
(`preferences.get` default 0) or outside `1..F` is added to no cell of
the raw preference histogram, and a student allocated to a faculty for
which their stated rank is missing or out of range appears in no cell of
the allocation-outcome histogram. -/
theorem claim_c10_out_of_range (s : Student) (fl : List String) (fac : String)
    (h : prefRankD s fac < 1 ∨ (fl.length : Int) < prefRankD s fac) :
    (∀ r, cellCount [s] fl fac r = 0) ∧
    (∀ fac2 r, allocCellCount [(s, some fac)] fl fac2 r = 0) := by
  have hfalse : ∀ b : Bool,
      (decide (1 ≤ prefRankD s fac) && decide (prefRankD s fac ≤ (fl.length : Int)) && b)
        = false := by
    intro b
    rcases h with h | h
    · have : ¬ (1 ≤ prefRankD s fac) := by omega
      simp [this]
    · have : ¬ (prefRankD s fac ≤ (fl.length : Int)) := by omega
      simp [this]
  constructor
  · intro r
    unfold cellCount
    rw [List.countP_cons, List.countP_nil, hfalse]
    simp
  · intro fac2 r
    unfold allocCellCount
    rw [List.countP_cons, List.countP_nil]
    rcases h with h | h
    · have h1 : ¬ (1 ≤ prefRankD s fac) := by omega
      simp [h1]
    · have h1 : ¬ (prefRankD s fac ≤ (fl.length : Int)) := by omega
      simp [h1]

theorem claim_c10_witness :
    (∀ r, cellCount [⟨"r1", "n", "e", 8, [("Y", 1)]⟩] ["X", "Y"] "X" r = 0) ∧
    (∀ fac2 r, allocCellCount [(⟨"r1", "n", "e", 8, [("Y", 1)]⟩, some "X")]
      ["X", "Y"] fac2 r = 0) :=
  claim_c10_out_of_range ⟨"r1", "n", "e", 8, [("Y", 1)]⟩ ["X", "Y"] "X" (by decide)
